import Mathlib

/-!
# Verification of the l1l2py optimization core

A shallow embedding, over exact rationals, of the numerical core of the
`l1l2py` repository (`algorithms.py` and the tools modules), together with
theorems checking the natural-language specification against it.

External library routines that the Python code calls (`numpy.linalg.pinv`,
`numpy.linalg.eigvalsh(...).max()`, `numpy`'s `std`'s square root, Python's
`round` and `random.shuffle`) are not part of the repository; they enter the
embedding as explicit function parameters, and the theorems that depend on
their behaviour carry their documented contracts as hypotheses.
-/

namespace L1L2

/-- A vector is a list of rationals (a 1-D `numpy` array of exact values). -/
abbrev Vec := List ℚ

/-- A matrix is a list of rows (a 2-D `numpy` array of exact values). -/
abbrev Mat := List (List ℚ)

/-- Dot product of two lists (truncating at the shorter one, as `zipWith`). -/
def dotL (xs ys : Vec) : ℚ := (List.zipWith (fun a b => a * b) xs ys).sum

/-- Number of columns of a matrix: the length of its first row. -/
def nCols (M : Mat) : ℕ := (M.headD []).length

/-- Column `j` of a matrix (out-of-range entries read as `0`). -/
def colL (j : ℕ) (M : Mat) : Vec := M.map (fun r => r.getD j 0)

/-- `numpy` matrix transpose `M.T`. -/
def transposeL (M : Mat) : Mat := (List.range (nCols M)).map (fun j => colL j M)

/-- `numpy.dot` of a matrix and a vector. -/
def matVec (M : Mat) (v : Vec) : Vec := M.map (fun r => dotL r v)

/-- `numpy.dot` of two matrices. -/
def matMul (A B : Mat) : Mat :=
  A.map (fun r => (List.range (nCols B)).map (fun j => dotL r (colL j B)))

/-- Scalar times matrix (elementwise, as `numpy` broadcasting). -/
def smulMat (c : ℚ) (M : Mat) : Mat := M.map (fun r => r.map (fun x => c * x))

/-- Elementwise sum of two matrices. -/
def matAdd (A B : Mat) : Mat := List.zipWith (fun r s => List.zipWith (fun a b => a + b) r s) A B

/-- `numpy.eye n`: the `n × n` identity matrix. -/
def eyeL (n : ℕ) : Mat :=
  (List.range n).map (fun i => (List.range n).map (fun j => if i = j then (1 : ℚ) else 0))

/-- Elementwise sum of two vectors. -/
def vadd (x y : Vec) : Vec := List.zipWith (fun a b => a + b) x y

/-- Elementwise difference of two vectors. -/
def vsub (x y : Vec) : Vec := List.zipWith (fun a b => a - b) x y

/-- Vector divided by a scalar (elementwise). -/
def vdivs (x : Vec) (c : ℚ) : Vec := x.map (fun a => a / c)

/-- `numpy.sign`. -/
def npSign (v : ℚ) : ℚ := if 0 < v then 1 else if v < 0 then -1 else 0

/-- `_soft_thresholding(x, th)` from `algorithms.py`: `out = x - sign(x)*(th/2)`,
then entries with `|x| < th/2` are overwritten with `0` (the in-place masked
assignment is modelled entrywise). -/
def _soft_thresholding (x : Vec) (th : ℚ) : Vec :=
  x.map (fun v => if |v| < th / 2 then 0 else v - npSign v * (th / 2))

/-- Whether a model has at least one nonzero coefficient:
`len(beta.nonzero()[0]) > 0`. -/
def hasNonzero (b : Vec) : Bool := b.any (fun x => decide (x ≠ 0))

/-- `ridge_regression(data, labels, mu)` from `algorithms.py`.  The
Moore-Penrose pseudo-inverse `numpy.linalg.pinv` is an external library
routine and is passed in as the parameter `pinv`. -/
def ridge_regression (pinv : Mat → Mat) (data : Mat) (labels : Vec) (mu : ℚ) : Vec :=
  let n := data.length
  let d := nCols data
  if n < d then
    let tmp := matMul data (transposeL data)
    let tmp := if mu ≠ 0 then matAdd tmp (smulMat (mu * n) (eyeL n)) else tmp
    matVec (matMul (transposeL data) (pinv tmp)) labels
  else
    let tmp := matMul (transposeL data) data
    let tmp := if mu ≠ 0 then matAdd tmp (smulMat (mu * n) (eyeL d)) else tmp
    matVec (pinv tmp) (matVec (transposeL data) labels)

/-- `_step_size(matrix)` from `algorithms.py`.  `numpy.linalg.eigvalsh(...).max()`
is an external library routine, passed in as the parameter `eig`. -/
def _step_size (eig : Mat → ℚ) (matrix : Mat) : ℚ :=
  let n := matrix.length
  let d := nCols matrix
  let tmp := if n < d then matMul matrix (transposeL matrix)
             else matMul (transposeL matrix) matrix
  2 / (eig tmp + 1 / 100000)

/-- One body of the `while` loop of `elastic_net`:
`value = beta + XTY - np.dot(XT, np.dot(data, beta))`;
`beta_next = _soft_thresholding(value, tau_s) / (1.0 + mu_s)`. -/
def enStep (data XT : Mat) (XTY : Vec) (mu_s tau_s : ℚ) (beta : Vec) : Vec :=
  vdivs (_soft_thresholding (vsub (vadd beta XTY) (matVec XT (matVec data beta))) tau_s)
    (1 + mu_s)

/-- The convergence test of `elastic_net` after an iteration that produced
`beta_next` from `beta` with (already incremented) iteration count `k`:
`(difference > th).any()` with `difference = np.abs(beta_next - beta)` and
`th = np.abs(beta) * (tol / k)`, `tol = 0.01`. -/
def enExceed (k : ℕ) (beta_next beta : Vec) : Bool :=
  (List.zipWith (fun bn b => decide (|b| * ((1 / 100) / (k : ℚ)) < |bn - b|)) beta_next beta).any
    (fun x => x)

/-- The `while` loop of `elastic_net`, with the fuel argument decreasing
structurally; `max 100 kmax` units of fuel are enough, because the loop
condition `k < kmin or ((difference > th).any() and k < kmax)` forces an exit
once `k` reaches `max kmin kmax` (`kmin = 100`).  The state is
`(beta, k, exceed)` where `exceed` records `(difference > th).any()` of the
last iteration (initially `True`, from `th, difference = -inf, inf`). -/
def enLoop (data XT : Mat) (XTY : Vec) (mu_s tau_s : ℚ) (kmax : ℕ) :
    ℕ → ℕ → Vec → Bool → Vec × ℕ × Bool
  | 0, k, beta, ex => (beta, k, ex)
  | fuel + 1, k, beta, ex =>
    if k < 100 ∨ (ex = true ∧ k < kmax) then
      let beta_next := enStep data XT XTY mu_s tau_s beta
      enLoop data XT XTY mu_s tau_s kmax fuel (k + 1) beta_next (enExceed (k + 1) beta_next beta)
    else (beta, k, ex)

/-- `elastic_net(data, labels, mu, tau, beta, kmax, step_size)` from
`algorithms.py`, with `returns_iterations` information always exposed: the
result is `(beta, k, exceed)` where `k` is the number of iterations performed
and `exceed` is the final value of `(difference > th).any()`.
`beta = None` (start from the OLS solution) is modelled by `Option`, and so is
`step_size = None` (use `_step_size(data)`). -/
def elastic_net (pinv : Mat → Mat) (eig : Mat → ℚ) (data : Mat) (labels : Vec)
    (mu tau : ℚ) (beta0 : Option Vec) (kmax : ℕ) (step_size : Option ℚ) : Vec × ℕ × Bool :=
  let n := data.length
  let s := step_size.getD (_step_size eig data)
  let mu_s := (n * mu) * s
  let tau_s := (n * tau) * s
  let XT := smulMat s (transposeL data)
  let XTY := matVec XT labels
  let beta := beta0.getD (ridge_regression pinv data labels 0)
  enLoop data XT XTY mu_s tau_s kmax (max 100 kmax) 0 beta true

/-- The body of one step of the `for tau in reversed(tau_range)` loop of
`elastic_net_regpath`, as a function of the loop's `nonzero` counter and the
current warm start `beta`:
`beta_next = beta_ls if mu == 0.0 and nonzero >= n else elastic_net(...)`. -/
def pathSolve (pinv : Mat → Mat) (eig : Mat → ℚ) (data : Mat) (labels : Vec)
    (mu : ℚ) (kmax : ℕ) (step_size : Option ℚ) (beta_ls : Vec) (n nonzero : ℕ)
    (beta : Vec) (tau : ℚ) : Vec :=
  if mu = 0 ∧ n ≤ nonzero then beta_ls
  else (elastic_net pinv eig data labels mu tau (some beta) kmax step_size).1

/-- `elastic_net_regpath(data, labels, mu, tau_range, beta, kmax, step_size)`
from `algorithms.py`, instrumented with a trace: the second component records
the `tau` values in the order in which the loop `for tau in reversed(tau_range)`
consumes them.  The loop state mirrors the source: current warm start `beta`,
the variable `nonzero` (initialized to `0` and — as in the source — never
updated), and the deque `out` to which models with a nonzero entry are
prepended (`appendleft`). -/
def elastic_net_regpath_run (pinv : Mat → Mat) (eig : Mat → ℚ) (data : Mat) (labels : Vec)
    (mu : ℚ) (tau_range : List ℚ) (beta0 : Option Vec) (kmax : ℕ) (step_size : Option ℚ) :
    List Vec × List ℚ :=
  let n := data.length
  let d := nCols data
  let beta_ls := ridge_regression pinv data labels 0
  let init := beta0.getD (List.replicate d 0)
  let fin := tau_range.reverse.foldl
    (fun (st : Vec × ℕ × List Vec × List ℚ) tau =>
      let beta_next := pathSolve pinv eig data labels mu kmax step_size beta_ls n st.2.1 st.1 tau
      (beta_next, st.2.1,
       (if hasNonzero beta_next then beta_next :: st.2.2.1 else st.2.2.1),
       st.2.2.2 ++ [tau]))
    (init, 0, [], [])
  (fin.2.2.1, fin.2.2.2)

/-- `elastic_net_regpath` proper: the list of returned models. -/
def elastic_net_regpath (pinv : Mat → Mat) (eig : Mat → ℚ) (data : Mat) (labels : Vec)
    (mu : ℚ) (tau_range : List ℚ) (beta0 : Option Vec) (kmax : ℕ) (step_size : Option ℚ) :
    List Vec :=
  (elastic_net_regpath_run pinv eig data labels mu tau_range beta0 kmax step_size).1

/-- The fixed-point map described by the specification for one `elastic_net`
iteration: `soft_threshold(beta + XtY - Xt_scaled·(X·beta), N*tau*s) / (1 + N*mu*s)`
with `Xt_scaled = Xᵀ*s` and `XtY = Xt_scaled·Y`. -/
def enIterate (data : Mat) (labels : Vec) (mu tau s : ℚ) (beta : Vec) : Vec :=
  let Xt_scaled := smulMat s (transposeL data)
  let XtY := matVec Xt_scaled labels
  vdivs (_soft_thresholding (vsub (vadd beta XtY) (matVec Xt_scaled (matVec data beta)))
      ((data.length * tau) * s))
    (1 + (data.length * mu) * s)

/-- "All entries within the adaptive threshold": the meaning of the exceed
flag being `false` after the iteration with (incremented) counter `k` moved
`b` to `bn`. -/
def AllWithin (k : ℕ) (bn b : Vec) : Prop :=
  ∀ p ∈ List.zip bn b, |p.1 - p.2| ≤ |p.2| * ((1 / 100) / (k : ℚ))

theorem enExceed_eq_false_iff (k : ℕ) (bn b : Vec) :
    enExceed k bn b = false ↔ AllWithin k bn b := by
  unfold enExceed AllWithin
  induction bn generalizing b with
  | nil => simp
  | cons x xs ih =>
    cases b with
    | nil => simp
    | cons y ys =>
      simp only [List.zipWith_cons_cons, List.any_cons, List.zip_cons_cons, List.mem_cons,
        Bool.or_eq_false_iff, decide_eq_false_iff_not, not_lt]
      constructor
      · rintro ⟨h1, h2⟩ p hp
        rcases hp with rfl | hp
        · exact h1
        · exact (ih ys).mp h2 p hp
      · intro h
        exact ⟨h (x, y) (Or.inl rfl), (ih ys).mpr (fun p hp => h p (Or.inr hp))⟩

theorem enExceed_self (k : ℕ) (b : Vec) : enExceed k b b = false := by
  unfold enExceed
  induction b with
  | nil => rfl
  | cons x xs ih =>
    simp only [List.zipWith_cons_cons, List.any_cons, Bool.or_eq_false_iff,
      decide_eq_false_iff_not, not_lt, sub_self, abs_zero]
    exact ⟨by positivity, ih⟩

/-- If the loop condition fails, `enLoop` returns its state unchanged. -/
theorem enLoop_stop (data XT : Mat) (XTY : Vec) (mu_s tau_s : ℚ) (kmax fuel k : ℕ)
    (beta : Vec) (ex : Bool) (h : ¬(k < 100 ∨ (ex = true ∧ k < kmax))) :
    enLoop data XT XTY mu_s tau_s kmax fuel k beta ex = (beta, k, ex) := by
  cases fuel <;> simp only [enLoop, if_neg h]

/-- The loop exits in a state in which the negated loop condition holds, and
never past iteration `max 100 kmax`. -/
theorem enLoop_exit_spec (data XT : Mat) (XTY : Vec) (mu_s tau_s : ℚ) (kmax : ℕ) :
    ∀ (fuel k : ℕ) (beta : Vec) (ex : Bool), k ≤ max 100 kmax → max 100 kmax ≤ k + fuel →
      100 ≤ (enLoop data XT XTY mu_s tau_s kmax fuel k beta ex).2.1 ∧
      ((enLoop data XT XTY mu_s tau_s kmax fuel k beta ex).2.2 = false ∨
        kmax ≤ (enLoop data XT XTY mu_s tau_s kmax fuel k beta ex).2.1) ∧
      (enLoop data XT XTY mu_s tau_s kmax fuel k beta ex).2.1 ≤ max 100 kmax := by
  intro fuel
  induction fuel with
  | zero =>
    intro k beta ex h1 h2
    simp only [enLoop]
    exact ⟨by omega, Or.inr (by omega), h1⟩
  | succ n ih =>
    intro k beta ex h1 h2
    by_cases hc : k < 100 ∨ (ex = true ∧ k < kmax)
    · simp only [enLoop, if_pos hc]
      have hk : k + 1 ≤ max 100 kmax := by rcases hc with h | ⟨-, h⟩ <;> omega
      exact ih (k + 1) _ _ hk (by omega)
    · rw [enLoop_stop _ _ _ _ _ _ _ _ _ _ hc]
      dsimp only
      rcases not_or.mp hc with ⟨h100, hand⟩
      refine ⟨by omega, ?_, h1⟩
      cases ex with
      | false => exact Or.inl rfl
      | true => exact Or.inr (by simp only [true_and, not_lt] at hand; exact hand)

/-- The model the loop returns is the `(k - k₀)`-fold application of the
iteration map to the starting model, `k` being the exit counter. -/
theorem enLoop_iterate (data XT : Mat) (XTY : Vec) (mu_s tau_s : ℚ) (kmax : ℕ) :
    ∀ (fuel k : ℕ) (beta : Vec) (ex : Bool),
      (enLoop data XT XTY mu_s tau_s kmax fuel k beta ex).1
        = (enStep data XT XTY mu_s tau_s)^[(enLoop data XT XTY mu_s tau_s kmax fuel k beta ex).2.1 - k] beta ∧
      k ≤ (enLoop data XT XTY mu_s tau_s kmax fuel k beta ex).2.1 := by
  intro fuel
  induction fuel with
  | zero => intro k beta ex; simp [enLoop]
  | succ n ih =>
    intro k beta ex
    by_cases hc : k < 100 ∨ (ex = true ∧ k < kmax)
    · simp only [enLoop, if_pos hc]
      obtain ⟨h1, h2⟩ := ih (k + 1) (enStep data XT XTY mu_s tau_s beta)
        (enExceed (k + 1) (enStep data XT XTY mu_s tau_s beta) beta)
      refine ⟨?_, by omega⟩
      rw [h1, ← Function.iterate_succ_apply]
      congr 1
      omega
    · rw [enLoop_stop _ _ _ _ _ _ _ _ _ _ hc]
      simp

/-- A run of the loop that starts at `1 ≤ k < 100` on a fixed point of the
iteration map exits at iteration `100` with the exceed flag cleared. -/
theorem enLoop_const_run (data XT : Mat) (XTY : Vec) (mu_s tau_s : ℚ) (kmax : ℕ) (b : Vec)
    (hfix : enStep data XT XTY mu_s tau_s b = b) :
    ∀ (fuel k : ℕ) (ex : Bool), 1 ≤ k → k < 100 → 100 ≤ k + fuel →
      enLoop data XT XTY mu_s tau_s kmax fuel k b ex = (b, 100, false) := by
  intro fuel
  induction fuel with
  | zero => intro k ex h1 h2 h3; omega
  | succ n ih =>
    intro k ex h1 h2 h3
    have hc : k < 100 ∨ (ex = true ∧ k < kmax) := Or.inl h2
    simp only [enLoop, if_pos hc]
    rw [hfix, enExceed_self]
    by_cases hk : k + 1 < 100
    · exact ih (k + 1) false (by omega) hk (by omega)
    · have hk100 : k + 1 = 100 := by omega
      rw [hk100, enLoop_stop]
      simp

/-- If the loop exits with the counter it started at, it did not move. -/
theorem enLoop_stay (data XT : Mat) (XTY : Vec) (mu_s tau_s : ℚ) (kmax : ℕ) :
    ∀ (fuel k : ℕ) (beta : Vec) (ex : Bool),
      (enLoop data XT XTY mu_s tau_s kmax fuel k beta ex).2.1 = k →
      enLoop data XT XTY mu_s tau_s kmax fuel k beta ex = (beta, k, ex) := by
  intro fuel
  induction fuel with
  | zero => intro k beta ex _; rfl
  | succ n ih =>
    intro k beta ex h
    by_cases hc : k < 100 ∨ (ex = true ∧ k < kmax)
    · exfalso
      simp only [enLoop, if_pos hc] at h
      have := (enLoop_iterate data XT XTY mu_s tau_s kmax n (k + 1)
        (enStep data XT XTY mu_s tau_s beta)
        (enExceed (k + 1) (enStep data XT XTY mu_s tau_s beta) beta)).2
      omega
    · exact enLoop_stop _ _ _ _ _ _ _ _ _ _ hc

/-- The exceed flag the loop returns is the convergence test of its last
iteration, expressed through iterates of the step map. -/
theorem enLoop_final_ex (data XT : Mat) (XTY : Vec) (mu_s tau_s : ℚ) (kmax : ℕ) :
    ∀ (fuel k : ℕ) (beta : Vec) (ex : Bool),
      k < (enLoop data XT XTY mu_s tau_s kmax fuel k beta ex).2.1 →
      (enLoop data XT XTY mu_s tau_s kmax fuel k beta ex).2.2
        = enExceed (enLoop data XT XTY mu_s tau_s kmax fuel k beta ex).2.1
            ((enStep data XT XTY mu_s tau_s)^[(enLoop data XT XTY mu_s tau_s kmax fuel k beta ex).2.1 - k] beta)
            ((enStep data XT XTY mu_s tau_s)^[(enLoop data XT XTY mu_s tau_s kmax fuel k beta ex).2.1 - k - 1] beta) := by
  intro fuel
  induction fuel with
  | zero => intro k beta ex h; simp only [enLoop] at h; omega
  | succ n ih =>
    intro k beta ex h
    by_cases hc : k < 100 ∨ (ex = true ∧ k < kmax)
    · simp only [enLoop, if_pos hc] at h ⊢
      have hmono := (enLoop_iterate data XT XTY mu_s tau_s kmax n (k + 1)
        (enStep data XT XTY mu_s tau_s beta)
        (enExceed (k + 1) (enStep data XT XTY mu_s tau_s beta) beta)).2
      rcases eq_or_lt_of_le hmono with heq | hlt
      · rw [enLoop_stay _ _ _ _ _ _ _ _ _ _ heq.symm]
        simp only [← heq]
        have e1 : k + 1 - k = 1 := by omega
        rw [e1]
        simp
      · rw [ih (k + 1) _ _ hlt]
        rw [← Function.iterate_succ_apply, ← Function.iterate_succ_apply]
        congr 2 <;> omega
    · rw [enLoop_stop _ _ _ _ _ _ _ _ _ _ hc] at h
      simp only at h
      omega

/-- Evaluation rule for a concrete `elastic_net` call whose starting model
maps in one iteration to a fixed point of the iteration map: the solver
performs exactly 100 iterations (the mandatory floor) and returns the fixed
point, for every `kmax`. -/
theorem elastic_net_const_eval (pinv : Mat → Mat) (eig : Mat → ℚ) (data : Mat) (labels : Vec)
    (mu tau : ℚ) (kmax : ℕ) (s : ℚ) (b0 b1 : Vec)
    (h1 : enStep data (smulMat s (transposeL data)) (matVec (smulMat s (transposeL data)) labels)
      ((data.length * mu) * s) ((data.length * tau) * s) b0 = b1)
    (h2 : enStep data (smulMat s (transposeL data)) (matVec (smulMat s (transposeL data)) labels)
      ((data.length * mu) * s) ((data.length * tau) * s) b1 = b1) :
    elastic_net pinv eig data labels mu tau (some b0) kmax (some s) = (b1, 100, false) := by
  unfold elastic_net
  simp only [Option.getD_some]
  obtain ⟨m, hm⟩ : ∃ m, max 100 kmax = m + 1 := ⟨max 100 kmax - 1, by omega⟩
  rw [hm]
  have hc : 0 < 100 ∨ (true = true ∧ 0 < kmax) := Or.inl (by omega)
  simp only [enLoop, if_pos hc]
  rw [h1]
  exact enLoop_const_run _ _ _ _ _ _ _ h2 m 1 _ (by omega) (by omega) (by omega)

/-- `enIterate` is exactly the step the solver's loop performs, once the
precomputed quantities are substituted. -/
theorem enIterate_eq_enStep (data : Mat) (labels : Vec) (mu tau s : ℚ) :
    enIterate data labels mu tau s
      = enStep data (smulMat s (transposeL data)) (matVec (smulMat s (transposeL data)) labels)
          ((data.length * mu) * s) ((data.length * tau) * s) := rfl

/-- C2, amended.  For every call of the solver with explicit starting model
and step size, writing its result as `(beta, k, ex)`: the loop stops exactly
when the iteration count `k` has reached the mandatory floor of 100 AND
(every entry's absolute change from the previous iterate is within the
adaptive per-entry threshold `|beta| * (0.01 / k)`, OR `k` has reached
`max_iters`); consequently the number of iterations performed never exceeds
`max (100, max_iters)` (and hence never exceeds `max_iters` whenever
`max_iters ≥ 100`).  The final flag `ex = false` means precisely that every
entry of the last step was within the adaptive threshold. -/
theorem claim2_stop_rule (pinv : Mat → Mat) (eig : Mat → ℚ) (data : Mat) (labels : Vec)
    (mu tau : ℚ) (b0 : Vec) (kmax : ℕ) (s : ℚ) (beta : Vec) (k : ℕ) (ex : Bool)
    (h : elastic_net pinv eig data labels mu tau (some b0) kmax (some s) = (beta, k, ex)) :
    100 ≤ k ∧ (ex = false ∨ kmax ≤ k) ∧ k ≤ max 100 kmax ∧
      (ex = false ↔ AllWithin k ((enIterate data labels mu tau s)^[k] b0)
        ((enIterate data labels mu tau s)^[k - 1] b0)) := by
  have hb : elastic_net pinv eig data labels mu tau (some b0) kmax (some s)
      = enLoop data (smulMat s (transposeL data)) (matVec (smulMat s (transposeL data)) labels)
        ((data.length * mu) * s) ((data.length * tau) * s) kmax (max 100 kmax) 0 b0 true := rfl
  rw [hb] at h
  have hspec := enLoop_exit_spec data (smulMat s (transposeL data))
    (matVec (smulMat s (transposeL data)) labels) ((data.length * mu) * s)
    ((data.length * tau) * s) kmax (max 100 kmax) 0 b0 true (by omega) (by omega)
  rw [h] at hspec
  simp only at hspec
  obtain ⟨h100, hdisj, hbound⟩ := hspec
  have hex := enLoop_final_ex data (smulMat s (transposeL data))
    (matVec (smulMat s (transposeL data)) labels) ((data.length * mu) * s)
    ((data.length * tau) * s) kmax (max 100 kmax) 0 b0 true (by rw [h]; simpa using by omega)
  rw [h] at hex
  simp only [Nat.sub_zero] at hex
  refine ⟨h100, hdisj, hbound, ?_⟩
  rw [enIterate_eq_enStep, hex, enExceed_eq_false_iff]

/-- C2, counterexample to the claim as stated: with `max_iters = 1` (a finite
caller-set ceiling) the solver still performs 100 iterations — the mandatory
floor `kmin = 100` dominates the `k < kmax` test in the loop condition — so
the number of iterations does exceed `max_iters`. -/
theorem claim2_counterexample :
    (elastic_net (fun m => m) (fun _ => 0) [[1]] [1] 0 0 (some [0]) 1 (some 1)).2.1 = 100 ∧
    ¬((elastic_net (fun m => m) (fun _ => 0) [[1]] [1] 0 0 (some [0]) 1 (some 1)).2.1 ≤ 1) := by
  have h := elastic_net_const_eval (fun m => m) (fun _ => 0) [[1]] [1] 0 0 1 1 [0] [1]
    (by norm_num [enStep, smulMat, transposeL, nCols, colL, matVec, dotL, vadd, vsub, vdivs,
      _soft_thresholding, npSign, List.range_succ])
    (by norm_num [enStep, smulMat, transposeL, nCols, colL, matVec, dotL, vadd, vsub, vdivs,
      _soft_thresholding, npSign, List.range_succ])
  rw [h]
  exact ⟨rfl, by norm_num⟩

/-- C2, witness: the stop rule instantiated on a concrete run (the same
`max_iters = 1` run, which exits at `k = 100` with the exceed flag cleared). -/
theorem claim2_witness :
    100 ≤ 100 ∧ ((false : Bool) = false ∨ 1 ≤ 100) ∧ 100 ≤ max 100 1 ∧
      ((false : Bool) = false ↔ AllWithin 100 ((enIterate [[1]] [1] 0 0 1)^[100] [0])
        ((enIterate [[1]] [1] 0 0 1)^[100 - 1] [0])) :=
  claim2_stop_rule (fun m => m) (fun _ => 0) [[1]] [1] 0 0 [0] 1 1 [1] 100 false
    (by
      exact elastic_net_const_eval (fun m => m) (fun _ => 0) [[1]] [1] 0 0 1 1 [0] [1]
        (by norm_num [enStep, smulMat, transposeL, nCols, colL, matVec, dotL, vadd, vsub, vdivs,
          _soft_thresholding, npSign, List.range_succ])
        (by norm_num [enStep, smulMat, transposeL, nCols, colL, matVec, dotL, vadd, vsub, vdivs,
          _soft_thresholding, npSign, List.range_succ]))

/-- C3, confirmed.  For every solver call with explicit starting model `b0`
and step size `s`, the returned model is the `k`-fold application (where `k`
is the number of iterations performed) of the map
`beta ↦ soft_threshold(beta + XtY - Xt_scaled·(X·beta), N*tau*s) / (1 + N*mu*s)`
to `b0`, with `Xt_scaled = Xᵀ*s` and `XtY = Xt_scaled·Y` (see `enIterate`):
each loop iteration performs exactly this update. -/
theorem claim3_iteration_formula (pinv : Mat → Mat) (eig : Mat → ℚ) (data : Mat) (labels : Vec)
    (mu tau : ℚ) (b0 : Vec) (kmax : ℕ) (s : ℚ) :
    (elastic_net pinv eig data labels mu tau (some b0) kmax (some s)).1
      = (enIterate data labels mu tau s)^[(elastic_net pinv eig data labels mu tau
          (some b0) kmax (some s)).2.1] b0 := by
  have hb : elastic_net pinv eig data labels mu tau (some b0) kmax (some s)
      = enLoop data (smulMat s (transposeL data)) (matVec (smulMat s (transposeL data)) labels)
        ((data.length * mu) * s) ((data.length * tau) * s) kmax (max 100 kmax) 0 b0 true := rfl
  rw [hb, enIterate_eq_enStep]
  have := (enLoop_iterate data (smulMat s (transposeL data))
    (matVec (smulMat s (transposeL data)) labels) ((data.length * mu) * s)
    ((data.length * tau) * s) kmax (max 100 kmax) 0 b0 true).1
  simpa using this

theorem soft_entry_abs_le (v th : ℚ) (hth : 0 ≤ th) (h : ¬ |v| < th / 2) :
    |v - npSign v * (th / 2)| ≤ |v| := by
  push_neg at h
  unfold npSign
  rcases lt_trichotomy 0 v with hv | hv | hv
  · have habs : |v| = v := abs_of_pos hv
    rw [habs] at h
    rw [if_pos hv, one_mul, habs, abs_of_nonneg (by linarith)]
    linarith
  · rw [← hv]
    simp
  · have habs : |v| = -v := abs_of_neg hv
    rw [habs] at h
    rw [if_neg (by linarith), if_pos hv, habs, neg_one_mul, sub_neg_eq_add,
      abs_of_nonpos (by linarith)]
    linarith

theorem soft_thresholding_zero (x : Vec) : _soft_thresholding x 0 = x := by
  unfold _soft_thresholding
  induction x with
  | nil => rfl
  | cons v xs ih =>
    simp only [List.map_cons, ih]
    congr 1
    rw [if_neg (by simp [abs_nonneg])]
    simp

theorem soft_thresholding_abs_le (x : Vec) (th : ℚ) (hth : 0 ≤ th) :
    List.Forall₂ (fun o v => |o| ≤ |v|) (_soft_thresholding x th) x := by
  unfold _soft_thresholding
  induction x with
  | nil => simp
  | cons v xs ih =>
    simp only [List.map_cons, List.forall₂_cons]
    refine ⟨?_, ih⟩
    by_cases h : |v| < th / 2
    · rw [if_pos h]
      simp [abs_nonneg]
    · rw [if_neg h]
      exact soft_entry_abs_le v th hth h

/-- C8, confirmed.  For every vector and every threshold `th ≥ 0`,
`soft_threshold` maps each entry `v` to `0` when `|v| < th/2` and to
`v - sign(v)*(th/2)` otherwise; at `th = 0` it is the identity, and every
output entry satisfies `|result| ≤ |input entry|`. -/
theorem claim8_soft_threshold (x : Vec) (th : ℚ) (hth : 0 ≤ th) :
    _soft_thresholding x th
        = x.map (fun v => if |v| < th / 2 then 0 else v - npSign v * (th / 2)) ∧
    _soft_thresholding x 0 = x ∧
    List.Forall₂ (fun o v => |o| ≤ |v|) (_soft_thresholding x th) x :=
  ⟨rfl, soft_thresholding_zero x, soft_thresholding_abs_le x th hth⟩

/-- C8, witness at `x = [3, -2, 0, 1/4]`, `th = 1`. -/
theorem claim8_witness :
    _soft_thresholding [3, -2, 0, 1/4] 1
        = ([3, -2, 0, 1/4] : Vec).map (fun v => if |v| < 1 / 2 then 0 else v - npSign v * (1 / 2)) ∧
    _soft_thresholding [3, -2, 0, 1/4] 0 = [3, -2, 0, 1/4] ∧
    List.Forall₂ (fun o v => |o| ≤ |v|) (_soft_thresholding [3, -2, 0, 1/4] 1) [3, -2, 0, 1/4] :=
  claim8_soft_threshold [3, -2, 0, 1/4] 1 (by norm_num)

/-- `center(labels)` of `l1l2py/tools.py` in the one-dimensional case in which
`balanced_classification_error` uses it: for a 1-D array, `mean(axis=0)` is
the scalar mean, subtracted from every entry. -/
def centerV (v : Vec) : Vec := v.map (fun x => x - v.sum / v.length)

/-- `balanced_classification_error(labels, predictions, error_weights)` from
`l1l2py/tools.py`: with default weights `|center(labels)|`, mismatching signs
contribute their weight, and the total is divided by the number of samples. -/
def balanced_classification_error (labels predictions : Vec) (error_weights : Option Vec) : ℚ :=
  let w := error_weights.getD ((centerV labels).map (fun x => |x|))
  let errors := List.zipWith (fun m wi => m * wi)
    (List.zipWith (fun l p => if npSign l ≠ npSign p then (1 : ℚ) else 0) labels predictions) w
  errors.sum / labels.length

theorem sum_zipWith_mul_right_zero (a b : List ℚ) (hb : ∀ y ∈ b, y = 0) :
    (List.zipWith (fun m wi => m * wi) a b).sum = 0 := by
  induction a generalizing b with
  | nil => simp
  | cons x xs ih =>
    cases b with
    | nil => simp
    | cons y ys =>
      have hy : y = 0 := hb y (List.mem_cons_self _ _)
      simp only [List.zipWith_cons_cons, List.sum_cons, hy, mul_zero, zero_add]
      exact ih ys (fun z hz => hb z (List.mem_cons_of_mem _ hz))

/-- C10, confirmed.  For a nonempty labels vector with all entries equal and
any predictions vector of the same length, `balanced_classification_error`
with default weights is exactly `0`: the default per-sample weights
`|label - mean(labels)|` all vanish. -/
theorem claim10_single_class (labels preds : Vec) (c : ℚ) (hne : labels ≠ [])
    (hc : ∀ x ∈ labels, x = c) (_hlen : labels.length = preds.length) :
    balanced_classification_error labels preds none = 0 := by
  unfold balanced_classification_error
  simp only [Option.getD_none]
  have hmean : labels.sum = (labels.length : ℚ) * c := by
    rw [List.sum_eq_card_nsmul labels c hc]
    simp [nsmul_eq_mul]
  have hw : ∀ y ∈ (centerV labels).map (fun x => |x|), y = 0 := by
    intro y hy
    simp only [centerV, List.map_map, List.mem_map, Function.comp] at hy
    obtain ⟨x, hx, rfl⟩ := hy
    have hx' : x = c := hc x hx
    have hlen0 : (labels.length : ℚ) ≠ 0 := by
      simpa [List.length_eq_zero] using hne
    rw [hx', hmean, mul_div_cancel_left₀ _ hlen0]
    simp
  rw [sum_zipWith_mul_right_zero _ _ hw]
  simp

/-- C10, witness: a single-class labels vector with every prediction wrong
still scores `0`. -/
theorem claim10_witness : balanced_classification_error [1, 1, 1] [-1, -1, -1] none = 0 :=
  claim10_single_class [1, 1, 1] [-1, -1, -1] 1 (by simp) (by norm_num) rfl

theorem length_transposeL (M : Mat) : (transposeL M).length = nCols M := by
  simp [transposeL]

theorem length_matMul (A B : Mat) : (matMul A B).length = A.length := by
  simp [matMul]

theorem mem_matMul_length (A B : Mat) : ∀ r ∈ matMul A B, r.length = nCols B := by
  intro r hr
  simp only [matMul, List.mem_map] at hr
  obtain ⟨a, -, rfl⟩ := hr
  simp

theorem nCols_transposeL_le (M : Mat) : nCols (transposeL M) ≤ M.length := by
  rcases h : nCols M with _ | k
  · unfold transposeL
    rw [h]
    simp [nCols]
  · unfold transposeL
    rw [h, List.range_succ_eq_map]
    simp [nCols, colL]

theorem zipWith_add_zero_right (r z : List ℚ) (hlen : r.length ≤ z.length)
    (hz : ∀ y ∈ z, y = 0) : List.zipWith (fun a b => a + b) r z = r := by
  induction r generalizing z with
  | nil => rfl
  | cons a as ih =>
    cases z with
    | nil => simp at hlen
    | cons b bs =>
      have hb : b = 0 := hz b (List.mem_cons_self _ _)
      simp only [List.zipWith_cons_cons, hb, add_zero]
      congr 1
      exact ih bs (by simpa using hlen) (fun y hy => hz y (List.mem_cons_of_mem _ hy))

theorem matAdd_zero_right (G Z : Mat) (n : ℕ) (hGZ : G.length ≤ Z.length)
    (hZ : ∀ r ∈ Z, n ≤ r.length ∧ ∀ y ∈ r, y = 0)
    (hG : ∀ r ∈ G, r.length ≤ n) : matAdd G Z = G := by
  induction G generalizing Z with
  | nil => rfl
  | cons g gs ih =>
    cases Z with
    | nil => simp at hGZ
    | cons z zs =>
      obtain ⟨hzlen, hz0⟩ := hZ z (List.mem_cons_self _ _)
      have hglen : g.length ≤ n := hG g (List.mem_cons_self _ _)
      show List.zipWith _ (g :: gs) (z :: zs) = g :: gs
      simp only [List.zipWith_cons_cons]
      rw [zipWith_add_zero_right g z (le_trans hglen hzlen) hz0]
      congr 1
      exact ih zs (by simpa using hGZ) (fun r hr => hZ r (List.mem_cons_of_mem _ hr))
        (fun r hr => hG r (List.mem_cons_of_mem _ hr))

theorem smulMat_zero_spec (M : Mat) :
    ∀ r ∈ smulMat 0 M, ∀ y ∈ r, y = 0 := by
  intro r hr y hy
  simp only [smulMat, List.mem_map] at hr
  obtain ⟨a, -, rfl⟩ := hr
  simp only [List.mem_map] at hy
  obtain ⟨b, -, rfl⟩ := hy
  simp

theorem smulMat_eyeL_row_length (c : ℚ) (n : ℕ) :
    ∀ r ∈ smulMat c (eyeL n), r.length = n := by
  intro r hr
  simp only [smulMat, eyeL, List.mem_map] at hr
  obtain ⟨a, ⟨i, -, rfl⟩, rfl⟩ := hr
  simp

theorem length_smulMat_eyeL (c : ℚ) (n : ℕ) : (smulMat c (eyeL n)).length = n := by
  simp [smulMat, eyeL]

/-- C5, confirmed.  For a well-formed `N × D` data matrix and penalty `p ≥ 0`,
`ridge_regression` returns `Xᵀ · pinv(X·Xᵀ + p*N*I) · Y` (the dual `N × N`
system) when `N < D`, and `pinv(Xᵀ·X + p*N*I) · Xᵀ·Y` (the primal `D × D`
system) otherwise, always through the externally supplied pseudo-inverse; at
`p = 0` the matrix handed to the pseudo-inverse is exactly the unpenalized
Gram matrix (no regularization term is added, which over exact arithmetic
coincides with adding `0*N*I`). -/
theorem claim5_ridge_formula (pinv : Mat → Mat) (X : Mat) (Y : Vec) (p : ℚ) (n d : ℕ)
    (hn : X.length = n) (hd : nCols X = d) (hp : 0 ≤ p) :
    ridge_regression pinv X Y p
      = if n < d then
          matVec (matMul (transposeL X)
            (pinv (matAdd (matMul X (transposeL X)) (smulMat (p * n) (eyeL n))))) Y
        else
          matVec (pinv (matAdd (matMul (transposeL X) X) (smulMat (p * n) (eyeL d))))
            (matVec (transposeL X) Y) := by
  subst hn hd
  by_cases hp0 : p = 0
  · subst hp0
    simp only [ridge_regression, ne_eq, not_true_eq_false, if_neg, zero_mul, if_false,
      not_not]
    have hthen : matAdd (matMul X (transposeL X)) (smulMat 0 (eyeL X.length))
        = matMul X (transposeL X) := by
      apply matAdd_zero_right _ _ X.length
      · rw [length_matMul, length_smulMat_eyeL]
      · intro r hr
        exact ⟨le_of_eq (smulMat_eyeL_row_length 0 X.length r hr).symm,
          smulMat_zero_spec _ r hr⟩
      · intro r hr
        rw [mem_matMul_length _ _ r hr]
        exact nCols_transposeL_le X
    have helse : matAdd (matMul (transposeL X) X) (smulMat 0 (eyeL (nCols X)))
        = matMul (transposeL X) X := by
      apply matAdd_zero_right _ _ (nCols X)
      · rw [length_matMul, length_transposeL, length_smulMat_eyeL]
      · intro r hr
        exact ⟨le_of_eq (smulMat_eyeL_row_length 0 (nCols X) r hr).symm,
          smulMat_zero_spec _ r hr⟩
      · intro r hr
        exact le_of_eq (mem_matMul_length _ _ r hr)
    rw [hthen, helse]
  · simp only [ridge_regression, ne_eq, hp0, not_false_eq_true, if_true]

/-- C5, witness at a concrete `2 × 1` system with `p = 1` and `pinv` the
identity function. -/
theorem claim5_witness :
    ridge_regression (fun m => m) [[1], [2]] [1, 1] 1
      = if 2 < 1 then
          matVec (matMul (transposeL [[1], [2]])
            (matAdd (matMul [[1], [2]] (transposeL [[1], [2]]))
              (smulMat ((1 : ℚ) * (2 : ℕ)) (eyeL 2)))) [1, 1]
        else
          matVec (matAdd (matMul (transposeL [[1], [2]]) [[1], [2]])
            (smulMat ((1 : ℚ) * (2 : ℕ)) (eyeL 1))) (matVec (transposeL [[1], [2]]) [1, 1]) :=
  claim5_ridge_formula (fun m => m) [[1], [2]] [1, 1] 1 2 1 rfl rfl (by norm_num)

/-- The warm-start chain of the path builder, in input order: the entry for
each `tau` is produced by solving at that `tau` warm-started from the model
of the entry one position later (the previously consumed `tau`); the
last-position entry starts from `beta0`.  Returns `(final model, models)`. -/
def chainModels (solve : Vec → ℚ → Vec) (beta0 : Vec) : List ℚ → Vec × List Vec
  | [] => (beta0, [])
  | tau :: rest =>
    let pr := chainModels solve beta0 rest
    (solve pr.1 tau, solve pr.1 tau :: pr.2)

theorem chainModels_fst (solve : Vec → ℚ → Vec) (b : Vec) (taus : List ℚ) :
    (chainModels solve b taus).1 = (chainModels solve b taus).2.headD b := by
  cases taus <;> simp [chainModels]

theorem chainModels_length (solve : Vec → ℚ → Vec) (b : Vec) :
    ∀ taus : List ℚ, (chainModels solve b taus).2.length = taus.length := by
  intro taus
  induction taus with
  | nil => rfl
  | cons t ts ih => simp [chainModels, ih]

/-- The fold that `elastic_net_regpath` performs over the reversed `tau`
sequence computes the warm-start chain, filters out all-zero models, and
records the consumption order `taus.reverse`. -/
theorem foldl_rev_chain (f : ℕ → Vec → ℚ → Vec) :
    ∀ (taus : List ℚ) (b : Vec) (nz : ℕ) (out : List Vec) (tr : List ℚ),
      taus.reverse.foldl
        (fun (st : Vec × ℕ × List Vec × List ℚ) tau =>
          let bn := f st.2.1 st.1 tau
          (bn, st.2.1, (if hasNonzero bn then bn :: st.2.2.1 else st.2.2.1),
            st.2.2.2 ++ [tau]))
        (b, nz, out, tr)
      = ((chainModels (f nz) b taus).1, nz,
         ((chainModels (f nz) b taus).2.filter (fun v => hasNonzero v)) ++ out,
         tr ++ taus.reverse) := by
  intro taus
  induction taus with
  | nil => intro b nz out tr; simp [chainModels]
  | cons t ts ih =>
    intro b nz out tr
    rw [List.reverse_cons, List.foldl_append, ih b nz out tr]
    simp only [List.foldl_cons, List.foldl_nil, chainModels, List.filter_cons]
    cases h : hasNonzero (f nz (chainModels (f nz) b ts).1 t) <;>
      simp [h, List.append_assoc]

/-- The instrumented trace of the path builder is always the reversed input
sequence: the `tau` values are consumed from the last input position to the
first. -/
theorem regpath_trace_eq (pinv : Mat → Mat) (eig : Mat → ℚ) (data : Mat) (labels : Vec)
    (mu : ℚ) (taus : List ℚ) (beta0 : Option Vec) (kmax : ℕ) (step_size : Option ℚ) :
    (elastic_net_regpath_run pinv eig data labels mu taus beta0 kmax step_size).2
      = taus.reverse := by
  unfold elastic_net_regpath_run
  dsimp only
  rw [foldl_rev_chain
    (pathSolve pinv eig data labels mu kmax step_size (ridge_regression pinv data labels 0)
      data.length)]
  simp

/-- The path the builder returns is the chain filtered to its models with a
nonzero entry. -/
theorem regpath_eq_chain_filter (pinv : Mat → Mat) (eig : Mat → ℚ) (data : Mat) (labels : Vec)
    (mu : ℚ) (taus : List ℚ) (beta0 : Option Vec) (kmax : ℕ) (step_size : Option ℚ) :
    elastic_net_regpath pinv eig data labels mu taus beta0 kmax step_size
      = ((chainModels
            (pathSolve pinv eig data labels mu kmax step_size
              (ridge_regression pinv data labels 0) data.length 0)
            (beta0.getD (List.replicate (nCols data) 0)) taus).2).filter
          (fun v => hasNonzero v) := by
  unfold elastic_net_regpath elastic_net_regpath_run
  dsimp only
  rw [foldl_rev_chain
    (pathSolve pinv eig data labels mu kmax step_size (ridge_regression pinv data labels 0)
      data.length)]
  simp

theorem headD_eq_of_ne_nil {α : Type} (l : List α) (x y : α) (h : l ≠ []) :
    l.headD x = l.headD y := by
  cases l with
  | nil => exact absurd rfl h
  | cons a as => rfl

/-- Adjacent entries of the chain: entry `i` is solved at `taus[i]` with the
entry at position `i+1` as its warm start. -/
theorem chainModels_getD_succ (solve : Vec → ℚ → Vec) (b : Vec) :
    ∀ (taus : List ℚ) (i : ℕ), i + 1 < taus.length →
      (chainModels solve b taus).2.getD i []
        = solve ((chainModels solve b taus).2.getD (i + 1) []) (taus.getD i 0) := by
  intro taus
  induction taus with
  | nil => intro i h; simp at h
  | cons t ts ih =>
    intro i h
    cases i with
    | zero =>
      have hts : ts ≠ [] := by
        intro hc
        rw [hc] at h
        simp at h
      have hch : (chainModels solve b ts).2 ≠ [] := by
        intro hc
        have := chainModels_length solve b ts
        rw [hc] at this
        simp only [List.length_nil] at this
        exact hts (List.length_eq_zero.mp this.symm)
      simp only [chainModels, List.getD_cons_zero, List.getD_cons_succ, List.getD]
      rw [chainModels_fst]
      rcases hl : (chainModels solve b ts).2 with _ | ⟨a, as⟩
      · exact absurd hl hch
      · rfl
    | succ j =>
      simp only [chainModels, List.getD_cons_succ]
      exact ih j (by simpa using h)

/-- The last chain entry (the first `tau` consumed) is solved from the
caller-supplied starting model. -/
theorem chainModels_getD_last (solve : Vec → ℚ → Vec) (b : Vec) :
    ∀ taus : List ℚ, taus ≠ [] →
      (chainModels solve b taus).2.getD (taus.length - 1) []
        = solve b (taus.getD (taus.length - 1) 0) := by
  intro taus
  induction taus with
  | nil => intro h; exact absurd rfl h
  | cons t ts ih =>
    intro _
    cases hts : ts with
    | nil => simp [chainModels]
    | cons t' ts' =>
      rw [← hts]
      have hlen : (t :: ts).length - 1 = (ts.length - 1) + 1 := by
        rw [hts]; simp
      rw [hlen]
      simp only [chainModels, List.getD_cons_succ]
      exact ih (by rw [hts]; simp)

/-- C4, counterexample to the claim as stated: for the descending tau
sequence `[2, 1]`, the builder consumes the taus in the order `[1, 2]` — the
smallest first — because `for tau in reversed(tau_range)` walks the input
from its last position; consumption is largest-to-smallest only for an
ascending input. -/
theorem claim4_counterexample :
    (elastic_net_regpath_run (fun m => m) (fun _ => 0) [[1]] [1] 0 [2, 1]
        (some [0]) 1 (some 1)).2 = [1, 2] ∧ ([1, 2] : List ℚ) ≠ [2, 1] := by
  constructor
  · rw [regpath_trace_eq]
    rfl
  · norm_num

/-- C4, amended.  The builder consumes the tau sequence in reverse input
order (last position first; for an ascending input this is largest to
smallest).  Writing `S` for the per-tau solve step (which warm-starts the
solver at the model handed to it) and `C` for the warm-start chain in input
order: the returned path is exactly the chain's models that have at least one
nonzero entry, in input order (prepending restores input order); the trace is
`taus.reverse`; each chain entry is solved warm-started from the entry one
position later — including when that model is all-zero — and the last entry
(the first tau consumed) from the caller's starting model. -/
theorem claim4_regpath_order (pinv : Mat → Mat) (eig : Mat → ℚ) (data : Mat) (labels : Vec)
    (mu : ℚ) (taus : List ℚ) (beta0 : Option Vec) (kmax : ℕ) (step_size : Option ℚ) :
    elastic_net_regpath pinv eig data labels mu taus beta0 kmax step_size
      = ((chainModels (pathSolve pinv eig data labels mu kmax step_size
            (ridge_regression pinv data labels 0) data.length 0)
            (beta0.getD (List.replicate (nCols data) 0)) taus).2).filter
          (fun v => hasNonzero v) ∧
    (elastic_net_regpath_run pinv eig data labels mu taus beta0 kmax step_size).2
      = taus.reverse ∧
    (∀ i : ℕ, i + 1 < taus.length →
      (chainModels (pathSolve pinv eig data labels mu kmax step_size
          (ridge_regression pinv data labels 0) data.length 0)
          (beta0.getD (List.replicate (nCols data) 0)) taus).2.getD i []
        = pathSolve pinv eig data labels mu kmax step_size
            (ridge_regression pinv data labels 0) data.length 0
            ((chainModels (pathSolve pinv eig data labels mu kmax step_size
                (ridge_regression pinv data labels 0) data.length 0)
                (beta0.getD (List.replicate (nCols data) 0)) taus).2.getD (i + 1) [])
            (taus.getD i 0)) ∧
    (taus ≠ [] →
      (chainModels (pathSolve pinv eig data labels mu kmax step_size
          (ridge_regression pinv data labels 0) data.length 0)
          (beta0.getD (List.replicate (nCols data) 0)) taus).2.getD (taus.length - 1) []
        = pathSolve pinv eig data labels mu kmax step_size
            (ridge_regression pinv data labels 0) data.length 0
            (beta0.getD (List.replicate (nCols data) 0))
            (taus.getD (taus.length - 1) 0)) ∧
    (chainModels (pathSolve pinv eig data labels mu kmax step_size
        (ridge_regression pinv data labels 0) data.length 0)
        (beta0.getD (List.replicate (nCols data) 0)) taus).2.length = taus.length :=
  ⟨regpath_eq_chain_filter pinv eig data labels mu taus beta0 kmax step_size,
   regpath_trace_eq pinv eig data labels mu taus beta0 kmax step_size,
   chainModels_getD_succ _ _ taus,
   chainModels_getD_last _ _ taus,
   chainModels_length _ _ taus⟩

/-- C4, witness on a concrete two-element tau sequence. -/
theorem claim4_witness :
    elastic_net_regpath (fun m => m) (fun _ => 0) [[1]] [1] 0 [2, 1] (some [0]) 1 (some 1)
      = ((chainModels (pathSolve (fun m => m) (fun _ => 0) [[1]] [1] 0 1 (some 1)
            (ridge_regression (fun m => m) [[1]] [1] 0) (List.length [[1]]) 0)
            ((some [0]).getD (List.replicate (nCols [[1]]) 0)) [2, 1]).2).filter
          (fun v => hasNonzero v) ∧
    (elastic_net_regpath_run (fun m => m) (fun _ => 0) [[1]] [1] 0 [2, 1]
        (some [0]) 1 (some 1)).2 = ([2, 1] : List ℚ).reverse ∧
    (∀ i : ℕ, i + 1 < ([2, 1] : List ℚ).length →
      (chainModels (pathSolve (fun m => m) (fun _ => 0) [[1]] [1] 0 1 (some 1)
          (ridge_regression (fun m => m) [[1]] [1] 0) (List.length [[1]]) 0)
          ((some [0]).getD (List.replicate (nCols [[1]]) 0)) [2, 1]).2.getD i []
        = pathSolve (fun m => m) (fun _ => 0) [[1]] [1] 0 1 (some 1)
            (ridge_regression (fun m => m) [[1]] [1] 0) (List.length [[1]]) 0
            ((chainModels (pathSolve (fun m => m) (fun _ => 0) [[1]] [1] 0 1 (some 1)
                (ridge_regression (fun m => m) [[1]] [1] 0) (List.length [[1]]) 0)
                ((some [0]).getD (List.replicate (nCols [[1]]) 0)) [2, 1]).2.getD (i + 1) [])
            (([2, 1] : List ℚ).getD i 0)) ∧
    (([2, 1] : List ℚ) ≠ [] →
      (chainModels (pathSolve (fun m => m) (fun _ => 0) [[1]] [1] 0 1 (some 1)
          (ridge_regression (fun m => m) [[1]] [1] 0) (List.length [[1]]) 0)
          ((some [0]).getD (List.replicate (nCols [[1]]) 0)) [2, 1]).2.getD
            (([2, 1] : List ℚ).length - 1) []
        = pathSolve (fun m => m) (fun _ => 0) [[1]] [1] 0 1 (some 1)
            (ridge_regression (fun m => m) [[1]] [1] 0) (List.length [[1]]) 0
            ((some [0]).getD (List.replicate (nCols [[1]]) 0))
            (([2, 1] : List ℚ).getD (([2, 1] : List ℚ).length - 1) 0)) ∧
    (chainModels (pathSolve (fun m => m) (fun _ => 0) [[1]] [1] 0 1 (some 1)
        (ridge_regression (fun m => m) [[1]] [1] 0) (List.length [[1]]) 0)
        ((some [0]).getD (List.replicate (nCols [[1]]) 0)) [2, 1]).2.length
      = ([2, 1] : List ℚ).length :=
  claim4_regpath_order (fun m => m) (fun _ => 0) [[1]] [1] 0 [2, 1] (some [0]) 1 (some 1)

/-- C1, code bug.  In the source, `nonzero` is initialized to `0` and never
reassigned, so the lasso-saturation branch `if mu == 0.0 and nonzero >= n`
can never fire for `n ≥ 1` and the precomputed least-squares model is never
substituted.  Concretely, on the 1×1 system `X = [[1]], Y = [1]` with
`mu = 0`, `tau_range = [1/2, 1/4]`, zero warm start and unit step: the first
consumed tau (`1/4`) produces the model `[7/8]`, which has `1 ≥ N = 1`
nonzero entries, so per the claim the next path entry (for `tau = 1/2`)
should be the precomputed OLS model `[1]`; the code instead re-runs the
iterative solver and returns `[3/4] ≠ [1]`. -/
theorem claim1_saturation_unreachable :
    elastic_net_regpath (fun m => m) (fun _ => 0) [[1]] [1] 0 [1/2, 1/4]
        (some [0]) 200 (some 1) = [[3/4], [7/8]] ∧
    ridge_regression (fun m => m) [[1]] [1] 0 = [1] ∧
    hasNonzero [7/8] = true ∧ ([3/4] : Vec) ≠ [1] := by
  have hls : ridge_regression (fun m => m) [[1]] [1] 0 = [1] := by
    norm_num [ridge_regression, matMul, transposeL, nCols, colL, dotL, matVec,
      List.range_succ]
  have e1 : elastic_net (fun m => m) (fun _ => 0) [[1]] [1] 0 (1/4) (some [0]) 200 (some 1)
      = ([7/8], 100, false) :=
    elastic_net_const_eval (fun m => m) (fun _ => 0) [[1]] [1] 0 (1/4) 200 1 [0] [7/8]
      (by norm_num [enStep, smulMat, transposeL, nCols, colL, matVec, dotL, vadd, vsub, vdivs,
        _soft_thresholding, npSign, List.range_succ])
      (by norm_num [enStep, smulMat, transposeL, nCols, colL, matVec, dotL, vadd, vsub, vdivs,
        _soft_thresholding, npSign, List.range_succ])
  have e2 : elastic_net (fun m => m) (fun _ => 0) [[1]] [1] 0 (1/2) (some [7/8]) 200 (some 1)
      = ([3/4], 100, false) :=
    elastic_net_const_eval (fun m => m) (fun _ => 0) [[1]] [1] 0 (1/2) 200 1 [7/8] [3/4]
      (by norm_num [enStep, smulMat, transposeL, nCols, colL, matVec, dotL, vadd, vsub, vdivs,
        _soft_thresholding, npSign, List.range_succ])
      (by norm_num [enStep, smulMat, transposeL, nCols, colL, matVec, dotL, vadd, vsub, vdivs,
        _soft_thresholding, npSign, List.range_succ])
  have hS0 : pathSolve (fun m => m) (fun _ => 0) [[1]] [1] 0 200 (some 1)
      (ridge_regression (fun m => m) [[1]] [1] 0) 1 0 [0] (1/4) = [7/8] := by
    unfold pathSolve
    rw [if_neg (by norm_num), e1]
  have hS1 : pathSolve (fun m => m) (fun _ => 0) [[1]] [1] 0 200 (some 1)
      (ridge_regression (fun m => m) [[1]] [1] 0) 1 0 [7/8] (1/2)
      = [3/4] := by
    unfold pathSolve
    rw [if_neg (by norm_num), e2]
  refine ⟨?_, hls, by norm_num [hasNonzero], by norm_num⟩
  rw [regpath_eq_chain_filter]
  norm_num [chainModels, hS0, hS1, hasNonzero, List.filter]

/-- Column means `matrix.mean(axis=0)` of a 2-D array. -/
def colMeanL (M : Mat) : Vec :=
  (List.range (nCols M)).map (fun j => (colL j M).sum / M.length)

/-- Column `ddof=1` variances: the squares of `matrix.std(axis=0, ddof=1)`. -/
def colVarL (M : Mat) : Vec :=
  (List.range (nCols M)).map (fun j =>
    ((colL j M).map (fun x => (x - (colL j M).sum / M.length) ^ 2)).sum
      / ((M.length : ℚ) - 1))

/-- Rowwise broadcast subtraction `M - v`. -/
def subRowVec (M : Mat) (v : Vec) : Mat :=
  M.map (fun r => List.zipWith (fun a b => a - b) r v)

/-- Rowwise broadcast division `M / v`. -/
def divRowVec (M : Mat) (v : Vec) : Mat :=
  M.map (fun r => List.zipWith (fun a b => a / b) r v)

/-- `standardize(matrix, optional_matrix)` from `l1l2py/tools.py` (the
two-matrix call without factors).  `numpy`'s `std(axis=0, ddof=1)` is the
square root of the `ddof=1` column variance; the square root is the external
real-valued library part, passed in as `sqrtFn` and applied to the variance.
The source raises its `ValueError` exactly when the 2-D `matrix` has one
row (`matrix.ndim == 2 and matrix.shape[0] == 1`). -/
def standardize (sqrtFn : ℚ → ℚ) (matrix : Mat) (optional_matrix : Option Mat) :
    Except String (Mat × Option Mat) :=
  if matrix.length = 1 then
    Except.error "matrix must have more than one row"
  else
    let mean := colMeanL matrix
    let std := (colVarL matrix).map sqrtFn
    Except.ok (divRowVec (subRowVec matrix mean) std,
      optional_matrix.map (fun om => divRowVec (subRowVec om mean) std))

/-- The column mean of `train` at column `j`, written as in the spec. -/
def specColMean (train : Mat) (j : ℕ) : ℚ :=
  (train.map (fun r => r.getD j 0)).sum / train.length

/-- The `ddof=1` column variance of `train` at column `j`, as in the spec. -/
def specColVar (train : Mat) (j : ℕ) : ℚ :=
  (train.map (fun r => (r.getD j 0 - specColMean train j) ^ 2)).sum
    / ((train.length : ℚ) - 1)

/-- Modelled from the spec's words: rescale every entry of `M` by the column
mean and `ddof=1` standard deviation computed from `train` only. -/
def specStandardized (sqrtFn : ℚ → ℚ) (train M : Mat) : Mat :=
  M.map (fun r => (List.range (nCols train)).map (fun j =>
    (r.getD j 0 - specColMean train j) / sqrtFn (specColVar train j)))

theorem getD_range_map (n j : ℕ) (g : ℕ → ℚ) (dflt : ℚ) (h : j < n) :
    ((List.range n).map g).getD j dflt = g j := by
  rw [List.getD_eq_getElem _ _ (by simpa using h)]
  simp

theorem zip2_map_range :
    ∀ (d : ℕ) (r m s : List ℚ), r.length = d → m.length = d → s.length = d →
      List.zipWith (fun a b => a / b) (List.zipWith (fun a b => a - b) r m) s
        = (List.range d).map (fun j => (r.getD j 0 - m.getD j 0) / s.getD j 0) := by
  intro d
  induction d with
  | zero =>
    intro r m s hr hm hs
    rw [List.length_eq_zero.mp hr, List.length_eq_zero.mp hm, List.length_eq_zero.mp hs]
    rfl
  | succ n ih =>
    intro r m s hr hm hs
    rcases r with _ | ⟨x, xs⟩; · simp at hr
    rcases m with _ | ⟨y, ys⟩; · simp at hm
    rcases s with _ | ⟨z, zs⟩; · simp at hs
    rw [List.range_succ_eq_map]
    simp only [List.zipWith_cons_cons, List.map_cons, List.map_map, List.getD_cons_zero]
    congr 1
    rw [ih xs ys zs (by simpa using hr) (by simpa using hm) (by simpa using hs)]
    apply List.map_congr_left
    intro j hj
    simp [Function.comp]

theorem length_colMeanL (M : Mat) : (colMeanL M).length = nCols M := by
  simp [colMeanL]

theorem length_colVarL (M : Mat) : (colVarL M).length = nCols M := by
  simp [colVarL]

theorem colMeanL_getD (M : Mat) (j : ℕ) (h : j < nCols M) :
    (colMeanL M).getD j 0 = specColMean M j := by
  unfold colMeanL
  rw [getD_range_map _ _ _ _ h]
  rfl

theorem colVarL_getD (sqrtFn : ℚ → ℚ) (M : Mat) (j : ℕ) (h : j < nCols M) :
    ((colVarL M).map sqrtFn).getD j 0 = sqrtFn (specColVar M j) := by
  unfold colVarL
  rw [List.map_map, getD_range_map _ _ _ _ h, Function.comp_apply]
  unfold specColVar specColMean colL
  rw [List.map_map]
  rfl

/-- Rescaling a well-formed matrix by the train-derived factors is exactly
the spec's entrywise formula. -/
theorem standardize_scale_spec (sqrtFn : ℚ → ℚ) (train M : Mat) (d : ℕ)
    (hd : nCols train = d) (hM : ∀ r ∈ M, r.length = d) :
    divRowVec (subRowVec M (colMeanL train)) ((colVarL train).map sqrtFn)
      = specStandardized sqrtFn train M := by
  unfold divRowVec subRowVec specStandardized
  rw [List.map_map]
  apply List.map_congr_left
  intro r hr
  have hr' : r.length = d := hM r hr
  rw [Function.comp_apply, zip2_map_range d r (colMeanL train) ((colVarL train).map sqrtFn)
    hr' (by rw [length_colMeanL, hd]) (by simp [length_colVarL, hd]), hd]
  apply List.map_congr_left
  intro j hj
  have hjd : j < nCols train := by rw [hd]; simpa using hj
  rw [colMeanL_getD train j hjd, colVarL_getD sqrtFn train j hjd]

/-- C6, amended.  `standardize(train, test)` computes the column mean and the
`ddof=1` column standard deviation from `train` only and rescales both
matrices by them; it raises the error exactly when `train` (a 2-D matrix)
has exactly one row — a 0-row train is not rejected (see the
counterexample), so "fewer than 2 rows" must be read as "exactly one row". -/
theorem claim6_standardize (sqrtFn : ℚ → ℚ) (train test : Mat) (d : ℕ)
    (hd : nCols train = d) (htr : ∀ r ∈ train, r.length = d)
    (hte : ∀ r ∈ test, r.length = d) :
    (train.length = 1 →
      standardize sqrtFn train (some test) = Except.error "matrix must have more than one row") ∧
    (train.length ≠ 1 →
      standardize sqrtFn train (some test)
        = Except.ok (specStandardized sqrtFn train train,
            some (specStandardized sqrtFn train test))) := by
  constructor
  · intro h1
    unfold standardize
    rw [if_pos h1]
  · intro h1
    unfold standardize
    rw [if_neg h1]
    dsimp only
    simp only [Option.map_some']
    rw [standardize_scale_spec sqrtFn train train d hd htr,
      standardize_scale_spec sqrtFn train test d hd hte]

/-- C6, witness: a 3×1 train matrix with unit variance and a 1×1 test
matrix, with the square root instantiated as the identity on the variance
value `1`. -/
theorem claim6_witness :
    (([[0], [1], [2]] : Mat).length = 1 →
      standardize (fun q => q) [[0], [1], [2]] (some [[5]])
        = Except.error "matrix must have more than one row") ∧
    (([[0], [1], [2]] : Mat).length ≠ 1 →
      standardize (fun q => q) [[0], [1], [2]] (some [[5]])
        = Except.ok (specStandardized (fun q => q) [[0], [1], [2]] [[0], [1], [2]],
            some (specStandardized (fun q => q) [[0], [1], [2]] [[5]]))) :=
  claim6_standardize (fun q => q) [[0], [1], [2]] [[5]] 1 rfl
    (by intro r hr; simp only [List.mem_cons] at hr
        rcases hr with rfl | rfl | rfl | h <;> first | rfl | simp at h)
    (by intro r hr; simp only [List.mem_cons] at hr
        rcases hr with rfl | h <;> first | rfl | simp at h)

/-- C6, counterexample to the claim as stated: a `train` matrix with zero
rows (fewer than 2) is not rejected — the source's check `matrix.ndim == 2
and matrix.shape[0] == 1` only fires for exactly one row, so the call
returns a (degenerate) result instead of raising. -/
theorem claim6_counterexample :
    standardize (fun q => q) [] (some [[1]]) = Except.ok ([], some [[]]) := by
  rfl

/-- `_split_dimensions(num_items, num_splits)` from `l1l2py/tools.py`: the
generator `start = 0; for remaining_splits in xrange(num_splits, 0, -1):
split_size = int(round(remaining_items / remaining_splits)); yield (start,
start + split_size); start += split_size; remaining_items -= split_size`.
Python's builtin `round` is external (and rounds half-integers differently in
Python 2 and 3); it enters as the parameter `rnd`, constrained in the
theorems only by the rounding contract `|rnd q - q| ≤ 1/2`, which both
behaviours satisfy. -/
def _split_dimensions (rnd : ℚ → ℤ) : ℤ → ℚ → ℕ → List (ℤ × ℤ)
  | _, _, 0 => []
  | start, remaining, rs + 1 =>
    let size := rnd (remaining / ((rs : ℚ) + 1))
    (start, start + size) :: _split_dimensions rnd (start + size) (remaining - size) rs

/-- Python list slice `l[s:e]` for `0 ≤ s ≤ e` (the only regime in which the
splits use it, under the rounding contract). -/
def pySlice {α : Type} (l : List α) (s e : ℤ) : List α :=
  (l.drop s.toNat).take (e.toNat - s.toNat)

/-- `_splits(indexes, k)` from `l1l2py/tools.py`:
`(indexes[:start] + indexes[end:], indexes[start:end])` for each generated
`(start, end)` pair. -/
def _splits {α : Type} (rnd : ℚ → ℤ) (indexes : List α) (k : ℕ) : List (List α × List α) :=
  (_split_dimensions rnd 0 (indexes.length : ℚ) k).map
    (fun se => (indexes.take se.1.toNat ++ indexes.drop se.2.toNat,
                pySlice indexes se.1 se.2))

/-- `kfold_splits(labels, k, rseed)` from `l1l2py/tools.py`.  The seeded
`random.shuffle` of `range(len(labels))` is external randomness; it enters as
the parameter `shuffle`, constrained in the theorem to produce a permutation
of its input. -/
def kfold_splits (rnd : ℚ → ℤ) (shuffle : List ℕ → List ℕ) (labels : Vec) (k : ℕ) :
    Except String (List (List ℕ × List ℕ)) :=
  if ¬(2 ≤ k ∧ k ≤ labels.length) then
    Except.error "k must be greater than one and smaller or equal than the number of samples"
  else
    Except.ok (_splits rnd (shuffle (List.range labels.length)) k)

/-- `L` is a chain of adjacent, nonempty-or-empty intervals running from `a`
to `b`. -/
def IsChain : ℤ → List (ℤ × ℤ) → ℤ → Prop
  | a, [], b => a = b
  | a, se :: rest, b => se.1 = a ∧ a ≤ se.2 ∧ IsChain se.2 rest b

/-- The rounding contract forces `rnd` to fix the integers. -/
theorem rnd_int_eq (rnd : ℚ → ℤ) (hr : ∀ q : ℚ, |((rnd q : ℤ) : ℚ) - q| ≤ 1 / 2)
    (z : ℤ) : rnd (z : ℚ) = z := by
  have h := hr (z : ℚ)
  by_contra hne
  have h1 : rnd (z : ℚ) - z ≠ 0 := sub_ne_zero.mpr hne
  have h2 : (1 : ℤ) ≤ |rnd (z : ℚ) - z| := Int.one_le_abs h1
  have h3 : (1 : ℚ) ≤ |((rnd (z : ℚ) : ℤ) : ℚ) - (z : ℚ)| := by
    have h4 : ((1 : ℤ) : ℚ) ≤ ((|rnd (z : ℚ) - z| : ℤ) : ℚ) := Int.cast_le.mpr h2
    push_cast at h4
    exact h4
  linarith

/-- Under the rounding contract, the chunk size is between `0` and the
remaining (integral) item count. -/
theorem rnd_div_bounds (rnd : ℚ → ℤ) (hr : ∀ q : ℚ, |((rnd q : ℤ) : ℚ) - q| ≤ 1 / 2)
    (m rs : ℕ) (hrs : 1 ≤ rs) :
    0 ≤ rnd ((m : ℚ) / (rs : ℚ)) ∧ rnd ((m : ℚ) / (rs : ℚ)) ≤ (m : ℤ) := by
  have h := hr ((m : ℚ) / (rs : ℚ))
  rw [abs_le] at h
  have hq0 : (0 : ℚ) ≤ (m : ℚ) / (rs : ℚ) := by positivity
  constructor
  · by_contra hneg
    push_neg at hneg
    have : (rnd ((m : ℚ) / (rs : ℚ)) : ℚ) ≤ -1 := by
      have : rnd ((m : ℚ) / (rs : ℚ)) ≤ -1 := by omega
      exact_mod_cast this
    linarith
  · rcases eq_or_lt_of_le hrs with h1 | h2
    · rw [← h1]
      push_cast
      rw [div_one]
      rw [show ((m : ℚ)) = ((m : ℤ) : ℚ) by push_cast; rfl]
      rw [rnd_int_eq rnd hr (m : ℤ)]
    · rcases Nat.eq_zero_or_pos m with hm | hm
      · subst hm
        have hz : ((0 : ℕ) : ℚ) / (rs : ℚ) = ((0 : ℤ) : ℚ) := by push_cast; simp
        rw [hz, rnd_int_eq rnd hr 0]
        simp
      · have hdiv : (m : ℚ) / (rs : ℚ) ≤ (m : ℚ) / 2 := by
          apply div_le_div_of_nonneg_left (by positivity) (by norm_num)
          exact_mod_cast h2
        have hm1 : (1 : ℚ) ≤ (m : ℚ) := by exact_mod_cast hm
        have : (rnd ((m : ℚ) / (rs : ℚ)) : ℚ) ≤ (m : ℚ) := by
          have : (rnd ((m : ℚ) / (rs : ℚ)) : ℚ) ≤ (m : ℚ) / (rs : ℚ) + 1 / 2 := by linarith
          have h3 : (m : ℚ) / 2 + 1 / 2 ≤ (m : ℚ) := by linarith
          linarith
        exact_mod_cast this

/-- `_split_dimensions`, started on an integral remaining count `m` with at
least one split to go, produces a chain of adjacent intervals from `start`
to `start + m`. -/
theorem split_dimensions_chain (rnd : ℚ → ℤ)
    (hr : ∀ q : ℚ, |((rnd q : ℤ) : ℚ) - q| ≤ 1 / 2) :
    ∀ (rs m : ℕ) (start : ℤ), 1 ≤ rs →
      IsChain start (_split_dimensions rnd start (m : ℚ) rs) (start + (m : ℤ)) := by
  intro rs
  induction rs with
  | zero => intro m start h1; omega
  | succ r ih =>
    intro m start _
    show IsChain start
      ((start, start + rnd ((m : ℚ) / ((r : ℚ) + 1))) ::
        _split_dimensions rnd (start + rnd ((m : ℚ) / ((r : ℚ) + 1)))
          ((m : ℚ) - rnd ((m : ℚ) / ((r : ℚ) + 1))) r)
      (start + (m : ℤ))
    have hb : 0 ≤ rnd ((m : ℚ) / ((r + 1 : ℕ) : ℚ)) ∧
        rnd ((m : ℚ) / ((r + 1 : ℕ) : ℚ)) ≤ (m : ℤ) :=
      rnd_div_bounds rnd hr m (r + 1) (by omega)
    have hcast : ((r + 1 : ℕ) : ℚ) = (r : ℚ) + 1 := by push_cast; ring
    rw [hcast] at hb
    set size := rnd ((m : ℚ) / ((r : ℚ) + 1)) with hsize
    obtain ⟨hs0, hsm⟩ := hb
    refine ⟨rfl, by omega, ?_⟩
    rcases Nat.eq_zero_or_pos r with hr0 | hrpos
    · subst hr0
      show (_ : Prop)
      have hm0 : (m : ℚ) / (((0 : ℕ) : ℚ) + 1) = ((m : ℤ) : ℚ) := by push_cast; ring
      have : size = (m : ℤ) := by
        rw [hsize, hm0, rnd_int_eq rnd hr]
      rw [this]
      show IsChain (start + (m : ℤ)) [] (start + (m : ℤ))
      rfl
    · have hmq : (m : ℚ) - (size : ℚ) = ((m - size.toNat : ℕ) : ℚ) := by
        have h2 : size.toNat ≤ m := by omega
        have h3 : ((size.toNat : ℕ) : ℤ) = size := Int.toNat_of_nonneg hs0
        push_cast [h2]
        congr 1
        exact_mod_cast h3.symm
      rw [hmq]
      have := ih (m - size.toNat) (start + size) hrpos
      have hend : start + size + ((m - size.toNat : ℕ) : ℤ) = start + (m : ℤ) := by
        have h2 : size.toNat ≤ m := by omega
        omega
      rw [hend] at this
      exact this

theorem split_dimensions_length (rnd : ℚ → ℤ) :
    ∀ (rs : ℕ) (start : ℤ) (remaining : ℚ),
      (_split_dimensions rnd start remaining rs).length = rs := by
  intro rs
  induction rs with
  | zero => intro start remaining; rfl
  | succ r ih =>
    intro start remaining
    show (_ :: _).length = r + 1
    rw [List.length_cons, ih]

theorem chain_bounds : ∀ (L : List (ℤ × ℤ)) (a b : ℤ), IsChain a L b → 0 ≤ a →
    ∀ se ∈ L, 0 ≤ se.1 ∧ se.1 ≤ se.2 := by
  intro L
  induction L with
  | nil => intro a b _ _ se hse; simp at hse
  | cons x rest ih =>
    intro a b hch ha se hse
    obtain ⟨hx1, hx2, hrest⟩ := hch
    rcases List.mem_cons.mp hse with rfl | hse'
    · exact ⟨hx1 ▸ ha, hx1 ▸ hx2⟩
    · exact ih x.2 b hrest (le_trans ha (hx1 ▸ hx2)) se hse'

theorem chain_slices_join {α : Type} (l : List α) :
    ∀ (L : List (ℤ × ℤ)) (a : ℤ), IsChain a L (l.length : ℤ) → 0 ≤ a →
      (L.map (fun se => pySlice l se.1 se.2)).flatten = l.drop a.toNat := by
  intro L
  induction L with
  | nil =>
    intro a hch _
    have ha : a = (l.length : ℤ) := hch
    rw [ha]
    simp
  | cons x rest ih =>
    intro a hch ha
    obtain ⟨hx1, hx2, hrest⟩ := hch
    have hx2nn : 0 ≤ x.2 := le_trans ha (hx1 ▸ hx2)
    simp only [List.map_cons, List.flatten_cons]
    rw [ih x.2 hrest hx2nn, hx1]
    unfold pySlice
    have hle : a.toNat ≤ x.2.toNat := Int.toNat_le_toNat (hx1 ▸ hx2)
    have hdd : l.drop x.2.toNat = (l.drop a.toNat).drop (x.2.toNat - a.toNat) := by
      rw [List.drop_drop]
      congr 1
      omega
    rw [hdd, List.take_append_drop]

theorem fold_train_test_perm {α : Type} (l : List α) (s e : ℤ) (hse : s ≤ e) :
    ((l.take s.toNat ++ l.drop e.toNat) ++ pySlice l s e).Perm l := by
  unfold pySlice
  have h2 : (l.drop s.toNat).drop (e.toNat - s.toNat) = l.drop e.toNat := by
    rw [List.drop_drop]
    congr 1
    have := Int.toNat_le_toNat hse
    omega
  have h3 : ((l.take s.toNat ++ l.drop e.toNat)
      ++ (l.drop s.toNat).take (e.toNat - s.toNat)).Perm
      (l.take s.toNat ++ ((l.drop s.toNat).take (e.toNat - s.toNat) ++ l.drop e.toNat)) := by
    rw [List.append_assoc]
    exact List.Perm.append_left _ List.perm_append_comm
  have h4 : l.take s.toNat ++ ((l.drop s.toNat).take (e.toNat - s.toNat) ++ l.drop e.toNat)
      = l := by
    rw [← h2, List.take_append_drop, List.take_append_drop]
  conv_rhs => rw [← h4]
  exact h3

/-- C7, confirmed.  Under the contracts of the external shuffle (a
permutation of `range N`) and of Python's `round` (error at most `1/2`),
`kfold_splits` with `2 ≤ k ≤ N` returns `k` folds whose test sets contain
every index exactly once (their concatenation is duplicate-free and a
permutation of the full index range, hence they are pairwise disjoint with
union the full index set), and each fold's train list together with its test
list is a permutation of the full index range (train is the complement of
test); a `k` outside `2 ≤ k ≤ N` is rejected with the `ValueError`. -/
theorem claim7_kfold_partition (rnd : ℚ → ℤ) (shuffle : List ℕ → List ℕ) (labels : Vec)
    (k : ℕ) (hr : ∀ q : ℚ, |((rnd q : ℤ) : ℚ) - q| ≤ 1 / 2)
    (hs : (shuffle (List.range labels.length)).Perm (List.range labels.length)) :
    (¬(2 ≤ k ∧ k ≤ labels.length) →
      kfold_splits rnd shuffle labels k
        = Except.error
            "k must be greater than one and smaller or equal than the number of samples") ∧
    (2 ≤ k ∧ k ≤ labels.length →
      kfold_splits rnd shuffle labels k
          = Except.ok (_splits rnd (shuffle (List.range labels.length)) k) ∧
        (_splits rnd (shuffle (List.range labels.length)) k).length = k ∧
        (((_splits rnd (shuffle (List.range labels.length)) k).map Prod.snd).flatten).Perm
          (List.range labels.length) ∧
        (((_splits rnd (shuffle (List.range labels.length)) k).map Prod.snd).flatten).Nodup ∧
        ∀ p ∈ _splits rnd (shuffle (List.range labels.length)) k,
          (p.1 ++ p.2).Perm (List.range labels.length)) := by
  constructor
  · intro h
    unfold kfold_splits
    rw [if_pos h]
  · intro h
    have hk1 : 1 ≤ k := by omega
    set idx := shuffle (List.range labels.length) with hidx
    have hlen : idx.length = labels.length := by
      rw [hs.length_eq, List.length_range]
    have hchain : IsChain 0 (_split_dimensions rnd 0 ((idx.length : ℕ) : ℚ) k)
        ((idx.length : ℤ)) := by
      have := split_dimensions_chain rnd hr k idx.length 0 hk1
      rwa [zero_add] at this
    have hjoin : ((_splits rnd idx k).map Prod.snd).flatten = idx := by
      unfold _splits
      rw [List.map_map]
      have heq : (Prod.snd ∘ fun se : ℤ × ℤ =>
          (idx.take se.1.toNat ++ idx.drop se.2.toNat, pySlice idx se.1 se.2))
          = fun se : ℤ × ℤ => pySlice idx se.1 se.2 := rfl
      rw [heq, chain_slices_join idx _ 0 hchain le_rfl]
      simp
    have hperm : (((_splits rnd idx k).map Prod.snd).flatten).Perm
        (List.range labels.length) := by
      rw [hjoin]
      exact hs
    refine ⟨?_, ?_, hperm, ?_, ?_⟩
    · unfold kfold_splits
      rw [if_neg (not_not_intro h)]
    · unfold _splits
      rw [List.length_map, split_dimensions_length]
    · exact hperm.symm.nodup (List.nodup_range _)
    · intro p hp
      unfold _splits at hp
      rw [List.mem_map] at hp
      obtain ⟨se, hse, rfl⟩ := hp
      have hb := chain_bounds _ 0 _ hchain le_rfl se hse
      exact (fold_train_test_perm idx se.1 se.2 hb.2).trans hs

/-- C7, witness: `labels = [1, 2, 3, 4]`, `k = 2`, the identity shuffle and
Mathlib's `round` (which satisfies the rounding contract). -/
theorem claim7_witness :
    (¬(2 ≤ 2 ∧ 2 ≤ ([1, 2, 3, 4] : Vec).length) →
      kfold_splits round (fun l => l) [1, 2, 3, 4] 2
        = Except.error
            "k must be greater than one and smaller or equal than the number of samples") ∧
    (2 ≤ 2 ∧ 2 ≤ ([1, 2, 3, 4] : Vec).length →
      kfold_splits round (fun l => l) [1, 2, 3, 4] 2
          = Except.ok (_splits round ((fun l : List ℕ => l)
              (List.range ([1, 2, 3, 4] : Vec).length)) 2) ∧
        (_splits round ((fun l : List ℕ => l) (List.range ([1, 2, 3, 4] : Vec).length)) 2).length
          = 2 ∧
        (((_splits round ((fun l : List ℕ => l) (List.range ([1, 2, 3, 4] : Vec).length)) 2).map
            Prod.snd).flatten).Perm (List.range ([1, 2, 3, 4] : Vec).length) ∧
        (((_splits round ((fun l : List ℕ => l) (List.range ([1, 2, 3, 4] : Vec).length)) 2).map
            Prod.snd).flatten).Nodup ∧
        ∀ p ∈ _splits round ((fun l : List ℕ => l) (List.range ([1, 2, 3, 4] : Vec).length)) 2,
          (p.1 ++ p.2).Perm (List.range ([1, 2, 3, 4] : Vec).length)) :=
  claim7_kfold_partition round (fun l => l) [1, 2, 3, 4] 2
    (fun q => by rw [abs_sub_comm]; exact abs_sub_round q) (List.Perm.refl _)

open Matrix

/-- The list-level matrix viewed as a real `n × d` matrix (entries beyond the
stored lists read as `0`; irrelevant on well-formed input). -/
noncomputable def toMatR (n d : ℕ) (M : Mat) : Matrix (Fin n) (Fin d) ℝ :=
  fun i j => (((M.getD i.1 []).getD j.1 0 : ℚ) : ℝ)

/-- `lam` is an eigenvalue of the real square matrix `A` and no eigenvalue
exceeds it. -/
def IsMaxEig {m : ℕ} (A : Matrix (Fin m) (Fin m) ℝ) (lam : ℝ) : Prop :=
  (∃ v : Fin m → ℝ, v ≠ 0 ∧ A.mulVec v = lam • v) ∧
  ∀ mu : ℝ, (∃ v : Fin m → ℝ, v ≠ 0 ∧ A.mulVec v = mu • v) → mu ≤ lam

theorem getD_map_lt {α β : Type} (f : α → β) (l : List α) (i : ℕ) (d : α) (d' : β)
    (h : i < l.length) : (l.map f).getD i d' = f (l.getD i d) := by
  rw [List.getD_eq_getElem _ _ (by simpa using h), List.getD_eq_getElem _ _ h,
    List.getElem_map]

theorem dotL_cast_sum : ∀ (b : ℕ) (xs ys : List ℚ), xs.length = b → ys.length = b →
    ((dotL xs ys : ℚ) : ℝ)
      = ∑ t : Fin b, ((xs.getD t.1 0 : ℚ) : ℝ) * ((ys.getD t.1 0 : ℚ) : ℝ) := by
  intro b
  induction b with
  | zero =>
    intro xs ys hx hy
    rw [List.length_eq_zero.mp hx, List.length_eq_zero.mp hy]
    simp [dotL]
  | succ m ih =>
    intro xs ys hx hy
    rcases xs with _ | ⟨x, xs'⟩; · simp at hx
    rcases ys with _ | ⟨y, ys'⟩; · simp at hy
    rw [Fin.sum_univ_succ]
    simp only [Fin.val_zero, Fin.val_succ, List.getD_cons_zero, List.getD_cons_succ]
    rw [← ih xs' ys' (by simpa using hx) (by simpa using hy)]
    unfold dotL
    rw [List.zipWith_cons_cons, List.sum_cons]
    push_cast
    ring

theorem nCols_transposeL_eq (M : Mat) (h : 1 ≤ nCols M) :
    nCols (transposeL M) = M.length := by
  rcases hc : nCols M with _ | k
  · omega
  · unfold transposeL
    rw [hc, List.range_succ_eq_map]
    simp [nCols, colL]

theorem mem_transposeL_length (M : Mat) : ∀ r ∈ transposeL M, r.length = M.length := by
  intro r hr
  unfold transposeL at hr
  rw [List.mem_map] at hr
  obtain ⟨j, -, rfl⟩ := hr
  simp [colL]

theorem toMatR_matMul (a b c : ℕ) (A B : Mat) (ha : A.length = a)
    (hA : ∀ r ∈ A, r.length = b) (hb : B.length = b) (hc : nCols B = c) :
    toMatR a c (matMul A B) = toMatR a b A * toMatR b c B := by
  funext i j
  rw [Matrix.mul_apply]
  unfold toMatR matMul
  rw [getD_map_lt _ A i.1 [] _ (by omega)]
  rw [getD_range_map (nCols B) j.1 _ 0 (by omega)]
  have hrow : (A.getD i.1 []).length = b := by
    apply hA
    rw [List.getD_eq_getElem _ _ (by omega)]
    exact List.getElem_mem _
  have hcol : (colL j.1 B).length = b := by
    rw [colL, List.length_map, hb]
  rw [dotL_cast_sum b _ _ hrow hcol]
  apply Finset.sum_congr rfl
  intro t _
  congr 2
  rw [colL, getD_map_lt _ B t.1 [] _ (by omega)]

theorem toMatR_transposeL (n d : ℕ) (M : Mat) (hn : M.length = n) (hd : nCols M = d) :
    toMatR d n (transposeL M) = (toMatR n d M)ᵀ := by
  funext j i
  rw [Matrix.transpose_apply]
  unfold toMatR
  congr 1
  unfold transposeL
  have h1 : j.1 < (List.range (nCols M)).length := by
    rw [List.length_range, hd]
    exact j.2
  rw [getD_map_lt _ (List.range (nCols M)) j.1 0 [] h1]
  have h2 : (List.range (nCols M)).getD j.1 0 = j.1 := by
    rw [List.getD_eq_getElem _ _ h1, List.getElem_range]
  rw [h2]
  unfold colL
  rw [getD_map_lt _ M i.1 [] 0 (by omega)]

theorem dotProduct_self_pos {m : ℕ} (v : Fin m → ℝ) (hv : v ≠ 0) :
    0 < Matrix.dotProduct v v := by
  obtain ⟨i, hi⟩ := Function.ne_iff.mp hv
  apply Finset.sum_pos'
  · intro t _
    exact mul_self_nonneg (v t)
  · exact ⟨i, Finset.mem_univ i, mul_self_pos.mpr hi⟩

theorem dotProduct_self_nonneg {m : ℕ} (w : Fin m → ℝ) :
    0 ≤ Matrix.dotProduct w w :=
  Finset.sum_nonneg (fun t _ => mul_self_nonneg (w t))

/-- Any eigenvalue of `A * Aᵀ` is nonnegative. -/
theorem eig_gram_nonneg {n d : ℕ} (A : Matrix (Fin n) (Fin d) ℝ) (lam : ℝ)
    (v : Fin n → ℝ) (hv : v ≠ 0) (heig : (A * Aᵀ).mulVec v = lam • v) : 0 ≤ lam := by
  have h1 : Matrix.dotProduct v ((A * Aᵀ).mulVec v) = lam * Matrix.dotProduct v v := by
    rw [heig, Matrix.dotProduct_smul, smul_eq_mul]
  have h2 : Matrix.dotProduct v ((A * Aᵀ).mulVec v)
      = Matrix.dotProduct (Aᵀ.mulVec v) (Aᵀ.mulVec v) := by
    rw [← Matrix.mulVec_mulVec, Matrix.dotProduct_mulVec, ← Matrix.mulVec_transpose]
  by_contra hneg
  push_neg at hneg
  have h3 := dotProduct_self_pos v hv
  have h4 := dotProduct_self_nonneg (Aᵀ.mulVec v)
  nlinarith

/-- A matrix with fewer rows than columns kills a nonzero vector. -/
theorem exists_kernel_vec {n d : ℕ} (hnd : n < d) (A : Matrix (Fin n) (Fin d) ℝ) :
    ∃ w : Fin d → ℝ, w ≠ 0 ∧ A.mulVec w = 0 := by
  have hker : LinearMap.ker A.mulVecLin ≠ ⊥ := by
    intro hbot
    have h1 := LinearMap.finrank_range_add_finrank_ker A.mulVecLin
    rw [hbot, finrank_bot] at h1
    have h2 : Module.finrank ℝ (LinearMap.range A.mulVecLin)
        ≤ Module.finrank ℝ (Fin n → ℝ) := (LinearMap.range A.mulVecLin).finrank_le
    rw [Module.finrank_fin_fun] at h2
    rw [Module.finrank_fin_fun] at h1
    omega
  obtain ⟨w, hw, hw0⟩ := (Submodule.ne_bot_iff _).mp hker
  refine ⟨w, hw0, ?_⟩
  simpa [Matrix.mulVecLin_apply] using hw

/-- Eigen-transfer: when `N < D`, the largest eigenvalue of the small Gram
matrix `A·Aᵀ` is also the largest eigenvalue of `Aᵀ·A`. -/
theorem isMaxEig_transfer {n d : ℕ} (hnd : n < d) (A : Matrix (Fin n) (Fin d) ℝ)
    (lam : ℝ) (h : IsMaxEig (A * Aᵀ) lam) : IsMaxEig (Aᵀ * A) lam := by
  obtain ⟨⟨v, hv, heig⟩, hmax⟩ := h
  have hlam0 : 0 ≤ lam := eig_gram_nonneg A lam v hv heig
  constructor
  · by_cases hlam : lam = 0
    · subst hlam
      obtain ⟨w, hw0, hwker⟩ := exists_kernel_vec hnd A
      refine ⟨w, hw0, ?_⟩
      rw [← Matrix.mulVec_mulVec, hwker, Matrix.mulVec_zero, zero_smul]
    · refine ⟨Aᵀ.mulVec v, ?_, ?_⟩
      · intro hzero
        have : (A * Aᵀ).mulVec v = 0 := by
          rw [← Matrix.mulVec_mulVec, hzero, Matrix.mulVec_zero]
        rw [heig] at this
        rcases smul_eq_zero.mp this with h0 | h0
        · exact hlam h0
        · exact hv h0
      · rw [Matrix.mulVec_mulVec, Matrix.mul_assoc, ← Matrix.mulVec_mulVec, heig,
          Matrix.mulVec_smul]
  · rintro mu ⟨w, hw, hmu⟩
    by_cases hAw : A.mulVec w = 0
    · have : mu • w = 0 := by
        rw [← hmu, ← Matrix.mulVec_mulVec, hAw, Matrix.mulVec_zero]
      rcases smul_eq_zero.mp this with h0 | h0
      · rw [h0]; exact hlam0
      · exact absurd h0 hw
    · apply hmax mu
      refine ⟨A.mulVec w, hAw, ?_⟩
      rw [Matrix.mulVec_mulVec, Matrix.mul_assoc, ← Matrix.mulVec_mulVec, hmu,
        Matrix.mulVec_smul]

/-- C9, confirmed.  Under the contract of the external
`numpy.linalg.eigvalsh(...).max()` — on the Gram matrix actually handed to it
(`X·Xᵀ` when `D > N`, else `Xᵀ·X`, the smaller of the two), it returns a
largest eigenvalue — `_step_size` returns exactly `2 / (λmax + 1e-5)` where
`λmax` is the largest eigenvalue of `XᵀX` itself: when `D > N` the largest
eigenvalue of `X·Xᵀ` is also the largest eigenvalue of `Xᵀ·X`. -/
theorem claim9_step_size (eig : Mat → ℚ) (X : Mat) (n d : ℕ)
    (hn : X.length = n) (hd : nCols X = d) (hwf : ∀ r ∈ X, r.length = d)
    (heig : IsMaxEig (toMatR (min n d) (min n d)
        (if n < d then matMul X (transposeL X) else matMul (transposeL X) X))
      ((eig (if n < d then matMul X (transposeL X) else matMul (transposeL X) X) : ℚ) : ℝ)) :
    ∃ lam : ℝ, IsMaxEig ((toMatR n d X)ᵀ * toMatR n d X) lam ∧
      ((_step_size eig X : ℚ) : ℝ) = 2 / (lam + 1 / 100000) := by
  subst hn hd
  by_cases hnd : X.length < nCols X
  · rw [if_pos hnd, min_eq_left hnd.le] at heig
    have hbr : toMatR X.length X.length (matMul X (transposeL X))
        = toMatR X.length (nCols X) X * (toMatR X.length (nCols X) X)ᵀ := by
      rw [toMatR_matMul X.length (nCols X) X.length X (transposeL X) rfl hwf
        (length_transposeL X) (nCols_transposeL_eq X (by omega)),
        toMatR_transposeL X.length (nCols X) X rfl rfl]
    rw [hbr] at heig
    refine ⟨_, isMaxEig_transfer hnd _ _ heig, ?_⟩
    simp only [_step_size]
    rw [if_pos hnd]
    push_cast
    ring
  · rw [if_neg hnd, min_eq_right (not_lt.mp hnd)] at heig
    have hbr : toMatR (nCols X) (nCols X) (matMul (transposeL X) X)
        = (toMatR X.length (nCols X) X)ᵀ * toMatR X.length (nCols X) X := by
      rw [toMatR_matMul (nCols X) X.length (nCols X) (transposeL X) X
        (length_transposeL X) (mem_transposeL_length X) rfl rfl,
        toMatR_transposeL X.length (nCols X) X rfl rfl]
    rw [hbr] at heig
    refine ⟨_, heig, ?_⟩
    simp only [_step_size]
    rw [if_neg hnd]
    push_cast
    ring

/-- C9, witness at the `1 × 1` matrix `X = [[1]]` with `eig` returning `1`
(the largest — and only — eigenvalue of the `1 × 1` Gram matrix `[[1]]`). -/
theorem claim9_witness :
    ∃ lam : ℝ, IsMaxEig ((toMatR 1 1 [[1]])ᵀ * toMatR 1 1 [[1]]) lam ∧
      ((_step_size (fun _ => 1) [[1]] : ℚ) : ℝ) = 2 / (lam + 1 / 100000) := by
  apply claim9_step_size (fun _ => 1) [[1]] 1 1 rfl rfl
  · intro r hr
    simp only [List.mem_cons] at hr
    rcases hr with rfl | h
    · rfl
    · simp at h
  · show IsMaxEig (toMatR 1 1 (matMul (transposeL [[1]]) [[1]])) (((1 : ℚ) : ℝ))
    have hone : ((1 : ℚ) : ℝ) = 1 := by norm_num
    rw [hone]
    have hM : ∀ i j : Fin 1, toMatR 1 1 (matMul (transposeL [[1]]) [[1]]) i j = 1 := by
      intro i j
      fin_cases i
      fin_cases j
      norm_num [toMatR, matMul, transposeL, nCols, colL, dotL, List.range_succ]
    constructor
    · refine ⟨fun _ => 1, ?_, ?_⟩
      · intro h
        have := congrFun h 0
        norm_num at this
      · funext i
        fin_cases i
        simp only [Matrix.mulVec, Matrix.dotProduct, Fin.sum_univ_one, Pi.smul_apply,
          smul_eq_mul]
        rw [hM]
    · rintro mu ⟨v, hv, hmv⟩
      have hv0 : v 0 ≠ 0 := by
        intro h0
        apply hv
        funext i
        fin_cases i
        exact h0
      have hz := congrFun hmv 0
      simp only [Matrix.mulVec, Matrix.dotProduct, Fin.sum_univ_one, Pi.smul_apply,
        smul_eq_mul] at hz
      rw [hM] at hz
      rw [one_mul] at hz
      have hmu1 : (mu - 1) * v 0 = 0 := by linarith [hz]
      rcases mul_eq_zero.mp hmu1 with h0 | h0
      · have hmu : mu = 1 := by linarith
        rw [hmu]
      · exact absurd h0 hv0

end L1L2
